import Mathlib

/-
Verification development for the trading-bot event coordination pipeline.

Shallow embedding conventions:
- Python strings are modelled as List Char (a Python str is a sequence of
  code points).
- Instants (datetime values) are modelled as Int, measured in seconds.
  The ISO-8601 serialization produced by datetime.isoformat and consumed
  by datetime.fromisoformat is modelled as the decimal numeral of the
  instant: the properties the claims depend on are that serialization is
  injective, round-trips through parsing, and contains neither the field
  separator (the pipe character) nor whitespace; the decimal numeral model
  has exactly these properties.
- The persisted store file is modelled as its list of lines (the result of
  splitlines on the file content). This is faithful to the byte-level file
  whenever no stored address contains a newline character, which holds for
  every record the system itself constructs; theorems about reachable
  stores carry that hypothesis.
- Fallible native calls (raising OSError and so on) are modelled with
  Except; a caught exception is a matched error value.
-/

namespace TradingBot

/-- Model of the ASCII whitespace characters stripped by the str.strip
method of Python (the fragment relevant to the data the system writes). -/
def isPySpace (c : Char) : Bool :=
  c = ' ' || c = '\t' || c = '\n' || c = '\r' || c = '\x0b' || c = '\x0c'

/-- Model of str.lstrip with no arguments. -/
def pyStripLeft (cs : List Char) : List Char :=
  cs.dropWhile isPySpace

/-- Model of str.rstrip with no arguments. -/
def pyStripRight (cs : List Char) : List Char :=
  (cs.reverse.dropWhile isPySpace).reverse

/-- Model of str.strip with no arguments. -/
def pyStrip (cs : List Char) : List Char :=
  pyStripRight (pyStripLeft cs)

/-- Model of line.split with separator the pipe character and maxsplit 1:
one part when no pipe occurs, otherwise the text before the first pipe and
everything after it. -/
def splitPipe1 (cs : List Char) : List (List Char) :=
  match cs.dropWhile (fun c => c != '|') with
  | [] => [cs]
  | _ :: post => [cs.takeWhile (fun c => c != '|'), post]

/-- Decimal digit to character, as used by the integer serialization. -/
def digitChar : Nat → Char
  | 0 => '0' | 1 => '1' | 2 => '2' | 3 => '3' | 4 => '4'
  | 5 => '5' | 6 => '6' | 7 => '7' | 8 => '8' | _ => '9'

/-- Character to decimal digit; none on a non-digit character. -/
def charDigit? (c : Char) : Option Nat :=
  if '0' ≤ c ∧ c ≤ '9' then some (c.toNat - '0'.toNat) else none

/-- Decimal numeral of a positive natural, most significant digit first.
The first argument is structural fuel; any fuel at least n is exact. -/
def natCharsAux : Nat → Nat → List Char
  | 0, _ => []
  | fuel + 1, n =>
    if n = 0 then []
    else natCharsAux fuel (n / 10) ++ [digitChar (n % 10)]

/-- Decimal numeral of a natural number. -/
def natToChars (n : Nat) : List Char :=
  if n = 0 then ['0'] else natCharsAux n n

/-- Model of the timestamp serialization performed by datetime.isoformat
(see the file header: an instant is serialized as its decimal numeral). -/
def tsToChars (t : Int) : List Char :=
  if t < 0 then '-' :: natToChars t.natAbs else natToChars t.natAbs

/-- Parse every character as a decimal digit; none if any character is not
a digit. -/
def digitsParse : List Char → Option (List Nat)
  | [] => some []
  | c :: cs =>
    match charDigit? c, digitsParse cs with
    | some d, some ds => some (d :: ds)
    | _, _ => none

/-- Parse a nonempty all-digit string to a natural number; none otherwise.
Together with tsParse this models datetime.fromisoformat, which succeeds
exactly on well-formed serialized instants. -/
def natParse (cs : List Char) : Option Nat :=
  match cs with
  | [] => none
  | _ =>
    match digitsParse cs with
    | none => none
    | some ds => some (ds.foldl (fun a d => 10 * a + d) 0)

/-- Model of datetime.fromisoformat on the decimal-numeral timestamp model. -/
def tsParse (cs : List Char) : Option Int :=
  match cs with
  | [] => none
  | c :: rest =>
    if c = '-' then (natParse rest).map (fun n => -(n : Int))
    else (natParse (c :: rest)).map (fun n => (n : Int))

/-- Value type of one observation, mirroring the AddressRecord dataclass of
storage/address_repo.py: a UTC instant and an address string. -/
structure AddressRecord where
  timestamp : Int
  address : List Char
deriving DecidableEq, Repr

/-- Model of AddressRecord.from_line: strip the line, split it at the first
pipe into exactly two parts, parse the timestamp part, and strip the
address part; any failure yields none. -/
def fromLine (line : List Char) : Option AddressRecord :=
  match splitPipe1 (pyStrip line) with
  | [tsPart, addressPart] =>
    match tsParse tsPart with
    | none => none
    | some t => some ⟨t, pyStrip addressPart⟩
  | _ => none

/-- Model of AddressRecord.to_line: serialized timestamp, a pipe, then the
address. -/
def toLine (r : AddressRecord) : List Char :=
  tsToChars r.timestamp ++ '|' :: r.address

/-- Model of the create_record helper of storage/address_repo.py with an
explicit timestamp (the Python default argument samples the clock, which
the embedding passes explicitly). -/
def create_record (address : List Char) (timestamp : Int) : AddressRecord :=
  ⟨timestamp, address⟩

/-- Insertion-ordered dictionary, the model of a Python dict: an
association list in which lookup finds the first binding, assignment to a
present key replaces its binding in place, and assignment to an absent key
appends at the end. -/
abbrev PyDict (α : Type) := List (List Char × α)

/-- Lookup in a Python dict model (dict.get). -/
def dictGet {α : Type} : PyDict α → List Char → Option α
  | [], _ => none
  | e :: es, k => if e.1 = k then some e.2 else dictGet es k

/-- In-place replacement of the binding of a present key. -/
def dictSet {α : Type} : PyDict α → List Char → α → PyDict α
  | [], _, _ => []
  | e :: es, k, v => if e.1 = k then (k, v) :: es else e :: dictSet es k v

/-- Model of dict assignment d[k] = v: replace in place when the key is
present, append at the end otherwise. -/
def dictInsert {α : Type} (d : PyDict α) (k : List Char) (v : α) : PyDict α :=
  match dictGet d k with
  | some _ => dictSet d k v
  | none => d ++ [(k, v)]

/-- One step of the merge loop of AddressRepository.append: parse the
line; keep the parsed record when its address is new or its timestamp is
strictly greater than the one already recorded for that address. -/
def mergeStep (d : PyDict AddressRecord) (line : List Char) : PyDict AddressRecord :=
  match fromLine line with
  | none => d
  | some existing =>
    match dictGet d existing.address with
    | none => d ++ [(existing.address, existing)]
    | some current =>
      if current.timestamp < existing.timestamp then dictSet d existing.address existing
      else d

/-- Records-by-address dictionary built from the existing file lines by
AddressRepository.append. -/
def mergeLines (lines : List (List Char)) : PyDict AddressRecord :=
  lines.foldl mergeStep []

/-- Stable insertion of a record into a list sorted by non-decreasing
timestamp: the new record goes after every record whose timestamp is less
than or equal to its own. -/
def insertSorted (r : AddressRecord) : List AddressRecord → List AddressRecord
  | [] => [r]
  | x :: xs => if x.timestamp ≤ r.timestamp then x :: insertSorted r xs else r :: x :: xs

/-- Model of the Python builtin sorted with key the timestamp. A stable
sort by a total preorder has a unique result, so stable insertion sort is
extensionally the sort the source performs. -/
def sortByTs (l : List AddressRecord) : List AddressRecord :=
  l.foldl (fun acc r => insertSorted r acc) []

/-- Model of AddressRepository.append acting on the store lines: rebuild
the records-by-address dictionary from the existing lines, assign the new
record to its address unconditionally, sort all values by timestamp and
rewrite the file as one line per record. -/
def appendStore (record : AddressRecord) (lines : List (List Char)) : List (List Char) :=
  let d := dictInsert (mergeLines lines) record.address record
  (sortByTs (d.map Prod.snd)).map toLine

/-- Model of AddressRepository.read_all: parse every line in file order,
silently skipping lines that fail to parse. -/
def readAll (lines : List (List Char)) : List AddressRecord :=
  lines.filterMap fromLine

/-- First parseable record of a list of lines, none if there is none. -/
def firstValid : List (List Char) → Option AddressRecord
  | [] => none
  | l :: ls =>
    match fromLine l with
    | some r => some r
    | none => firstValid ls

/-- Model of AddressRepository.read_latest: scan the lines from the last
one backwards and return the first record that parses, none otherwise. -/
def readLatest (lines : List (List Char)) : Option AddressRecord :=
  firstValid lines.reverse

/-- Store lines reached by a sequence of append calls starting from the
empty file. -/
def storeOfAppends (rs : List AddressRecord) : List (List Char) :=
  rs.foldl (fun st r => appendStore r st) []

/-- Store states reachable by append sequences from the empty file. The
no-newline condition on appended addresses is the fidelity condition of
the line-list file model (see the file header); it holds for every record
the system constructs. -/
def ReachableStore (st : List (List Char)) : Prop :=
  ∃ rs : List AddressRecord,
    (∀ r ∈ rs, '\n' ∉ r.address) ∧ st = storeOfAppends rs

/-- Outcomes of the native filesystem calls made by
AddressRepository.backup: creating the backup directory, reading the store
file, writing the snapshot. An error value is a raised OSError. -/
structure BackupEnv where
  mkdirResult : Except Unit Unit
  readResult : Except Unit (List Char)
  writeResult : Except Unit Unit

/-- Log lines emitted by AddressRepository.backup. -/
inductive BackupEvent where
  | logCreated
  | logFailed
deriving DecidableEq, Repr

/-- Model of AddressRepository.backup: the directory creation runs outside
the try block, so its error propagates; reading the store content and
writing the snapshot run inside the try block, so their errors are caught,
logged, and turned into a none result. -/
def backup (env : BackupEnv) (target : List Char) :
    Except Unit (Option (List Char) × List BackupEvent) :=
  match env.mkdirResult with
  | .error e => .error e
  | .ok _ =>
    match env.readResult with
    | .error _ => .ok (none, [.logFailed])
    | .ok _ =>
      match env.writeResult with
      | .error _ => .ok (none, [.logFailed])
      | .ok _ => .ok (some target, [.logCreated])

/-- Model of TimeGuard.is_recent: a missing record is never recent, and a
record is recent exactly when its age relative to the reference instant is
at most the configured maximum age. -/
def isRecent (maxAge : Int) (record : Option AddressRecord) (now : Int) : Bool :=
  match record with
  | none => false
  | some r => now - r.timestamp ≤ maxAge

/-- Default of the require_time_window_seconds configuration entry, the
maximum age used by TimeGuard. -/
def requireTimeWindowSecondsDefault : Int := 20

/-- Default of the retry_attempts pipeline configuration entry. -/
def defaultRetryAttempts : Nat := 3

/-- Model of TradingPipeline._should_skip: look up the last execution
instant for the address; skip exactly when it exists and its age relative
to the reference instant is strictly below the debounce window. -/
def shouldSkip (recent : PyDict Int) (debounce : Int) (address : List Char) (now : Int) : Bool :=
  match dictGet recent address with
  | none => false
  | some lastExec => now - lastExec < debounce

/-- Model of TradingPipeline._prune_recent_executions: drop every entry
whose age relative to the reference instant is at least the debounce
window (the early return on an empty dict is behaviorally the same). -/
def pruneRecent (debounce : Int) (recent : PyDict Int) (now : Int) : PyDict Int :=
  match recent with
  | [] => []
  | _ => recent.filter (fun e => now - e.2 < debounce)

/-- Observable events of one pipeline evaluation: listener pause and
resume, trade attempts, inter-attempt sleeps, and the log lines of
TradingPipeline._process_record and _execute_with_retry. -/
inductive PEvent where
  | pauseListener
  | resumeListener
  | tradeAttempt (attempt : Nat)
  | sleepBetween (delay : Int)
  | logStale
  | logNotLatest
  | logDebounced
  | logTradeSuccess (attempt : Nat)
  | logTradeFail (attempt total : Nat)
  | logAllFailed
deriving DecidableEq, Repr

/-- Recognizer of trade attempt events. -/
def isTradeAttempt : PEvent → Bool
  | .tradeAttempt _ => true
  | _ => false

/-- Recognizer of inter-attempt sleep events. -/
def isSleepBetween : PEvent → Bool
  | .sleepBetween _ => true
  | _ => false

/-- Loop body of TradingPipeline._execute_with_retry. The second argument
is the configured attempt total, the third is the number of attempts still
to run, the last is the one-based index of the next attempt; the trade
action either returns or raises, and every raise is caught. After the last
failing attempt the terminal all-attempts-failed condition is logged, and
a sleep of the fixed delay separates consecutive attempts. -/
def retryGo (trade : Nat → Except Unit Unit) (total : Nat) (delay : Int) :
    Nat → Nat → List PEvent
  | 0, _ => [.logAllFailed]
  | remaining + 1, attempt =>
    match trade attempt with
    | .ok _ => [.tradeAttempt attempt, .logTradeSuccess attempt]
    | .error _ =>
      [.tradeAttempt attempt, .logTradeFail attempt total]
        ++ (if remaining ≠ 0 then [.sleepBetween delay] else [])
        ++ retryGo trade total delay remaining (attempt + 1)

/-- Model of TradingPipeline._execute_with_retry: run the attempt loop for
the configured number of attempts starting at attempt index one. -/
def executeWithRetry (trade : Nat → Except Unit Unit) (attempts : Nat) (delay : Int) :
    List PEvent :=
  retryGo trade attempts delay attempts 1

/-- Pipeline configuration entries used by the controller, mirroring
PipelineConfig and the trade time window. -/
structure PipeCfg where
  maxAgeSeconds : Int
  debounceSeconds : Int
  retryAttempts : Nat
  retryDelaySeconds : Int

/-- Mutable controller state touched by TradingPipeline._process_record. -/
structure PipeState where
  recentExecutions : PyDict Int
  lastExecutedAddress : Option (List Char)
  lastExecutionTime : Option Int
deriving DecidableEq, Repr

/-- Model of TradingPipeline._process_record. The instant now is the clock
value during evaluation (the recency guard and the debounce check), and
execNow is the clock value sampled after the execution attempt sequence
and used for all bookkeeping. Rejections return the state unchanged; the
execution path pauses the listener, runs the bounded retry, resumes the
listener, and then unconditionally records the execution instant and
prunes stale debounce entries. -/
def processRecord (cfg : PipeCfg) (trade : Nat → Except Unit Unit)
    (store : List (List Char)) (ps : PipeState) (record : AddressRecord)
    (now execNow : Int) : PipeState × List PEvent :=
  if isRecent cfg.maxAgeSeconds (some record) now = false then
    (ps, [.logStale])
  else
    match readLatest store with
    | none => (ps, [.logNotLatest])
    | some latest =>
      if latest.address = record.address ∧ latest.timestamp = record.timestamp then
        if shouldSkip ps.recentExecutions cfg.debounceSeconds record.address now then
          (ps, [.logDebounced])
        else
          ({ recentExecutions :=
               pruneRecent cfg.debounceSeconds
                 (dictInsert ps.recentExecutions record.address execNow) execNow
             lastExecutedAddress := some record.address
             lastExecutionTime := some execNow },
           .pauseListener :: executeWithRetry trade cfg.retryAttempts cfg.retryDelaySeconds
             ++ [.resumeListener])
      else (ps, [.logNotLatest])

/-- Coalescing drain of the consumer loop of TradingPipeline.run: after
taking the first available item, repeatedly take the next immediately
available item, keeping only the last one taken, until the queue is empty.
Returns the surviving record and the queue contents left behind. -/
def wakeDrain : AddressRecord → List AddressRecord → AddressRecord × List AddressRecord
  | r, [] => (r, [])
  | _, x :: xs => wakeDrain x xs

/-- One wake of the consumer loop of TradingPipeline.run: the blocking get
returns the first pending record, the drain coalesces the rest, and
exactly the surviving record is handed to _process_record. -/
def runIteration (cfg : PipeCfg) (trade : Nat → Except Unit Unit)
    (store : List (List Char)) (ps : PipeState)
    (first : AddressRecord) (rest : List AddressRecord)
    (now execNow : Int) : PipeState × List PEvent :=
  processRecord cfg trade store ps (wakeDrain first rest).1 now execNow

/-- Lowercase hexadecimal characters, as in the membership check of
WeChatOCRListener._normalize_address. -/
def lowerHexChars : List Char :=
  ['0', '1', '2', '3', '4', '5', '6', '7', '8', '9'] ++ ['a', 'b', 'c', 'd', 'e', 'f']

/-- Normalization invariant of the specification: the address is the two
characters 0 and x followed by exactly forty lowercase hexadecimal
characters. -/
def isNormalizedAddr (a : List Char) : Prop :=
  a.take 2 = ['0', 'x'] ∧ a.length = 42 ∧ ∀ c ∈ a.drop 2, c ∈ lowerHexChars

instance (a : List Char) : Decidable (isNormalizedAddr a) := by
  unfold isNormalizedAddr; infer_instance

/-- Model of WeChatOCRListener._normalize_address. The NFKC table lookup
is passed as a function parameter (its content is irrelevant to every
claim: the shape checks run after it). Removing spaces, newlines and
carriage returns by three sequential str.replace calls is the single
filter below, and str.lower is the character-wise lowering map on the
fragment that can reach the hexadecimal checks. -/
def normalizeAddress (nfkc : List Char → List Char) (candidate : List Char) :
    Option (List Char) :=
  if candidate = [] then none
  else
    let t1 := nfkc candidate
    let t2 := t1.filter (fun c => c ≠ ' ' ∧ c ≠ '\n' ∧ c ≠ '\r')
    let t3 := t2.map Char.toLower
    if t3.take 2 ≠ ['0', 'x'] then none
    else if t3.length ≠ 42 then none
    else if (t3.drop 2).all (fun c => c ∈ lowerHexChars) then some t3
    else none

/-! Helper lemmas: the decimal timestamp serialization round-trips through
parsing and consists of sign and digit characters only. -/

theorem charDigit_digitChar {d : Nat} (h : d < 10) : charDigit? (digitChar d) = some d := by
  interval_cases d <;> decide

theorem digitChar_not_space (d : Nat) : isPySpace (digitChar d) = false := by
  unfold digitChar; split <;> rfl

theorem digitChar_ne_pipe (d : Nat) : digitChar d ≠ '|' := by
  unfold digitChar; split <;> decide

theorem digitChar_ne_minus (d : Nat) : digitChar d ≠ '-' := by
  unfold digitChar; split <;> decide

theorem digitChar_ne_newline (d : Nat) : digitChar d ≠ '\n' := by
  unfold digitChar; split <;> decide

theorem mem_natCharsAux :
    ∀ fuel n c, c ∈ natCharsAux fuel n → ∃ d, d < 10 ∧ c = digitChar d := by
  intro fuel
  induction fuel with
  | zero => intro n c hc; simp [natCharsAux] at hc
  | succ fuel ih =>
    intro n c hc
    by_cases hn : n = 0
    · simp [natCharsAux, hn] at hc
    · simp only [natCharsAux, hn, if_false, List.mem_append, List.mem_singleton] at hc
      rcases hc with hc | hc
      · exact ih _ c hc
      · exact ⟨n % 10, Nat.mod_lt _ (by omega), hc⟩

theorem mem_natToChars (n : Nat) (c : Char) (hc : c ∈ natToChars n) :
    ∃ d, d < 10 ∧ c = digitChar d := by
  by_cases hn : n = 0
  · simp [natToChars, hn] at hc
    exact ⟨0, by omega, by simp [hc, digitChar]⟩
  · exact mem_natCharsAux n n c (by simpa [natToChars, hn] using hc)

theorem natToChars_ne_nil (n : Nat) : natToChars n ≠ [] := by
  by_cases hn : n = 0
  · simp [natToChars, hn]
  · simp only [natToChars, hn, if_false]
    cases fuel : n with
    | zero => omega
    | succ m => simp [natCharsAux, hn]

theorem digitsParse_eq_some (g : Char → Nat) :
    ∀ l : List Char, (∀ x ∈ l, charDigit? x = some (g x)) →
      digitsParse l = some (l.map g) := by
  intro l
  induction l with
  | nil => intro _; rfl
  | cons a l ih =>
    intro h
    have ha := h a (by simp)
    have hl := ih (fun x hx => h x (by simp [hx]))
    simp [digitsParse, ha, hl]

theorem foldl_decimal_natCharsAux :
    ∀ fuel n, n ≤ fuel →
      ((natCharsAux fuel n).map (fun c => (charDigit? c).getD 0)).foldl
        (fun a d => 10 * a + d) 0 = n := by
  intro fuel
  induction fuel with
  | zero => intro n h; interval_cases n; rfl
  | succ fuel ih =>
    intro n h
    by_cases hn : n = 0
    · simp [natCharsAux, hn]
    · have hdiv : n / 10 ≤ fuel := by
        have : n / 10 < n := Nat.div_lt_self (by omega) (by omega)
        omega
      have hmod : charDigit? (digitChar (n % 10)) = some (n % 10) :=
        charDigit_digitChar (Nat.mod_lt _ (by omega))
      simp only [natCharsAux, hn, if_false, List.map_append, List.foldl_append,
        List.map_cons, List.map_nil, List.foldl_cons, List.foldl_nil, hmod,
        Option.getD_some, ih _ hdiv]
      omega

theorem natParse_natToChars (n : Nat) : natParse (natToChars n) = some n := by
  by_cases hn : n = 0
  · simp [natToChars, hn]; rfl
  · have hne := natToChars_ne_nil n
    have hmap : digitsParse (natToChars n)
        = some ((natToChars n).map (fun c => (charDigit? c).getD 0)) := by
      apply digitsParse_eq_some
      intro c hc
      obtain ⟨d, hd, rfl⟩ := mem_natToChars n c hc
      simp [charDigit_digitChar hd]
    have hval : ((natToChars n).map (fun c => (charDigit? c).getD 0)).foldl
        (fun a d => 10 * a + d) 0 = n := by
      simpa [natToChars, hn] using foldl_decimal_natCharsAux n n le_rfl
    obtain ⟨c, cs, hcs⟩ := List.exists_cons_of_ne_nil hne
    rw [hcs] at hmap hval ⊢
    show (match digitsParse (c :: cs) with
      | none => none
      | some ds => some (ds.foldl (fun a d => 10 * a + d) 0)) = some n
    rw [hmap]
    exact congrArg some hval

theorem natToChars_head_ne_minus (n : Nat) (c : Char) (cs : List Char)
    (h : natToChars n = c :: cs) : c ≠ '-' := by
  have : c ∈ natToChars n := by simp [h]
  obtain ⟨d, _, rfl⟩ := mem_natToChars n c this
  exact digitChar_ne_minus d

theorem tsParse_cons (c : Char) (cs : List Char) :
    tsParse (c :: cs)
      = if c = '-' then (natParse cs).map (fun n => -(n : Int))
        else (natParse (c :: cs)).map (fun n => (n : Int)) := rfl

theorem tsParse_tsToChars (t : Int) : tsParse (tsToChars t) = some t := by
  by_cases ht : t < 0
  · have h1 : tsToChars t = '-' :: natToChars t.natAbs := by simp [tsToChars, ht]
    rw [h1, tsParse_cons, if_pos rfl, natParse_natToChars]
    have h2 : -((t.natAbs : Nat) : Int) = t := by omega
    exact congrArg some h2
  · obtain ⟨c, cs, hcs⟩ := List.exists_cons_of_ne_nil (natToChars_ne_nil t.natAbs)
    have hts : tsToChars t = c :: cs := by rw [tsToChars, if_neg ht, hcs]
    have hcm : c ≠ '-' := natToChars_head_ne_minus _ _ _ hcs
    rw [hts, tsParse_cons, if_neg hcm, ← hcs, natParse_natToChars]
    have h2 : ((t.natAbs : Nat) : Int) = t := by omega
    exact congrArg some h2

theorem mem_tsToChars_facts (t : Int) (c : Char) (hc : c ∈ tsToChars t) :
    isPySpace c = false ∧ c ≠ '|' ∧ c ≠ '\n' := by
  have : c = '-' ∨ ∃ d, d < 10 ∧ c = digitChar d := by
    by_cases ht : t < 0
    · simp only [tsToChars, ht, if_true, List.mem_cons] at hc
      rcases hc with rfl | hc
      · exact Or.inl rfl
      · exact Or.inr (mem_natToChars _ _ hc)
    · exact Or.inr (mem_natToChars _ _ (by simpa [tsToChars, ht] using hc))
  rcases this with rfl | ⟨d, _, rfl⟩
  · refine ⟨rfl, by decide, by decide⟩
  · exact ⟨digitChar_not_space d, digitChar_ne_pipe d, digitChar_ne_newline d⟩

theorem tsToChars_ne_nil (t : Int) : tsToChars t ≠ [] := by
  by_cases ht : t < 0 <;> simp [tsToChars, ht, natToChars_ne_nil]

/-! Helper lemmas: stripping and splitting a serialized line recovers its
parts, so parsing is a left inverse of serialization up to stripping the
address. -/

theorem dropWhile_append_of_neg {α : Type} (p : α → Bool) (y : α) (h : p y = false) :
    ∀ xs ys : List α, (xs ++ y :: ys).dropWhile p = xs.dropWhile p ++ y :: ys := by
  intro xs ys
  induction xs with
  | nil => simp [List.dropWhile_cons, h]
  | cons a xs ih =>
    by_cases ha : p a
    · simpa [List.dropWhile_cons, ha] using ih
    · simp [List.dropWhile_cons, ha]

theorem takeWhile_append_of_all {α : Type} (p : α → Bool) :
    ∀ xs ys : List α, (∀ x ∈ xs, p x = true) →
      (xs ++ ys).takeWhile p = xs ++ ys.takeWhile p := by
  intro xs ys
  induction xs with
  | nil => intro _; rfl
  | cons a xs ih =>
    intro h
    have ha := h a (by simp)
    simp only [List.cons_append, List.takeWhile_cons, ha, if_true]
    rw [ih (fun x hx => h x (by simp [hx]))]

theorem dropWhile_append_of_all {α : Type} (p : α → Bool) :
    ∀ xs ys : List α, (∀ x ∈ xs, p x = true) →
      (xs ++ ys).dropWhile p = ys.dropWhile p := by
  intro xs ys
  induction xs with
  | nil => intro _; rfl
  | cons a xs ih =>
    intro h
    have ha := h a (by simp)
    simp only [List.cons_append, List.dropWhile_cons, ha, if_true]
    exact ih (fun x hx => h x (by simp [hx]))

theorem pyStrip_toLine (r : AddressRecord) :
    pyStrip (toLine r) = tsToChars r.timestamp ++ '|' :: pyStripRight r.address := by
  obtain ⟨c, cs, hcs⟩ := List.exists_cons_of_ne_nil (tsToChars_ne_nil r.timestamp)
  have hc : isPySpace c = false :=
    (mem_tsToChars_facts r.timestamp c (by simp [hcs])).1
  have hleft : pyStripLeft (toLine r) = toLine r := by
    rw [toLine, pyStripLeft, hcs, List.cons_append, List.dropWhile_cons, hc]
    simp
  have hpipe : isPySpace '|' = false := by decide
  rw [pyStrip, hleft, toLine, pyStripRight, List.reverse_append, List.reverse_cons,
    List.append_assoc, List.singleton_append,
    dropWhile_append_of_neg isPySpace '|' hpipe,
    List.reverse_append, List.reverse_cons, List.reverse_reverse]
  rw [pyStripRight]
  simp

theorem splitPipe1_of_left_clean (ts rest : List Char) (h : ∀ c ∈ ts, c ≠ '|') :
    splitPipe1 (ts ++ '|' :: rest) = [ts, rest] := by
  have hall : ∀ c ∈ ts, (c != '|') = true := by
    intro c hc
    simpa using h c hc
  have hdrop : (ts ++ '|' :: rest).dropWhile (fun c => c != '|') = '|' :: rest := by
    rw [dropWhile_append_of_all _ ts ('|' :: rest) hall, List.dropWhile_cons]
    simp
  have htake : (ts ++ '|' :: rest).takeWhile (fun c => c != '|') = ts := by
    rw [takeWhile_append_of_all _ ts ('|' :: rest) hall, List.takeWhile_cons]
    simp
  rw [splitPipe1, hdrop, htake]

theorem fromLine_toLine (r : AddressRecord) :
    fromLine (toLine r) = some ⟨r.timestamp, pyStrip (pyStripRight r.address)⟩ := by
  have hpipe : ∀ c ∈ tsToChars r.timestamp, c ≠ '|' := fun c hc =>
    (mem_tsToChars_facts r.timestamp c hc).2.1
  rw [fromLine, pyStrip_toLine, splitPipe1_of_left_clean _ _ hpipe]
  simp [tsParse_tsToChars]

theorem dropWhile_eq_self_of_length {α : Type} (p : α → Bool) (l : List α)
    (h : (l.dropWhile p).length = l.length) : l.dropWhile p = l :=
  (List.dropWhile_sublist p).eq_of_length h

theorem strip_fixed_parts (a : List Char) (h : pyStrip a = a) :
    pyStripLeft a = a ∧ pyStripRight a = a := by
  have h1 : (pyStripLeft a).length ≤ a.length :=
    (List.dropWhile_sublist isPySpace).length_le
  have h2 : (pyStripRight (pyStripLeft a)).length ≤ (pyStripLeft a).length := by
    have := (List.dropWhile_sublist isPySpace (l := (pyStripLeft a).reverse)).length_le
    simpa [pyStripRight] using this
  have hlen : (pyStripLeft a).length = a.length := by
    have : (pyStrip a).length = a.length := by rw [h]
    rw [pyStrip] at this
    omega
  have hL : pyStripLeft a = a := dropWhile_eq_self_of_length isPySpace a hlen
  refine ⟨hL, ?_⟩
  have : pyStripRight a = pyStrip a := by rw [pyStrip, hL]
  rw [this, h]

theorem fromLine_toLine_of_clean (r : AddressRecord) (h : pyStrip r.address = r.address) :
    fromLine (toLine r) = some r := by
  rw [fromLine_toLine, (strip_fixed_parts r.address h).2, h]

/-! Helper lemmas: reading back a store written as one line per record,
and sortedness of the insertion sort used to model the Python sorted
builtin. -/

theorem readAll_map_toLine (recs : List AddressRecord) :
    readAll (recs.map toLine)
      = recs.map (fun r => ⟨r.timestamp, pyStrip (pyStripRight r.address)⟩) := by
  induction recs with
  | nil => rfl
  | cons r recs ih =>
    simp only [List.map_cons, readAll, List.filterMap_cons, fromLine_toLine]
    rw [readAll] at ih
    rw [ih]

theorem firstValid_map_toLine (recs : List AddressRecord) :
    firstValid (recs.map toLine)
      = recs.head?.map (fun r => ⟨r.timestamp, pyStrip (pyStripRight r.address)⟩) := by
  cases recs with
  | nil => rfl
  | cons r recs => simp [firstValid, fromLine_toLine]

theorem readLatest_map_toLine (recs : List AddressRecord) :
    readLatest (recs.map toLine)
      = recs.getLast?.map (fun r => ⟨r.timestamp, pyStrip (pyStripRight r.address)⟩) := by
  rw [readLatest, ← List.map_reverse, firstValid_map_toLine, List.head?_reverse]

theorem mem_insertSorted (r a : AddressRecord) :
    ∀ l : List AddressRecord, a ∈ insertSorted r l ↔ a = r ∨ a ∈ l := by
  intro l
  induction l with
  | nil => simp [insertSorted]
  | cons x xs ih =>
    by_cases hx : x.timestamp ≤ r.timestamp
    · simp only [insertSorted, hx, if_true, List.mem_cons, ih]
      tauto
    · simp only [insertSorted, hx, if_false, List.mem_cons]

theorem pairwise_insertSorted (r : AddressRecord) :
    ∀ l : List AddressRecord,
      l.Pairwise (fun x y => x.timestamp ≤ y.timestamp) →
      (insertSorted r l).Pairwise (fun x y => x.timestamp ≤ y.timestamp) := by
  intro l
  induction l with
  | nil => intro _; simp [insertSorted]
  | cons x xs ih =>
    intro hp
    rw [List.pairwise_cons] at hp
    by_cases hx : x.timestamp ≤ r.timestamp
    · rw [insertSorted, if_pos hx, List.pairwise_cons]
      refine ⟨?_, ih hp.2⟩
      intro y hy
      rcases (mem_insertSorted r y xs).mp hy with rfl | hy
      · exact hx
      · exact hp.1 y hy
    · rw [insertSorted, if_neg hx, List.pairwise_cons]
      refine ⟨?_, List.pairwise_cons.mpr hp⟩
      intro y hy
      rcases List.mem_cons.mp hy with rfl | hy
      · omega
      · have := hp.1 y hy
        omega

theorem pairwise_foldl_insertSorted :
    ∀ (l acc : List AddressRecord),
      acc.Pairwise (fun x y => x.timestamp ≤ y.timestamp) →
      (l.foldl (fun acc r => insertSorted r acc) acc).Pairwise
        (fun x y => x.timestamp ≤ y.timestamp) := by
  intro l
  induction l with
  | nil => intro acc h; exact h
  | cons r l ih =>
    intro acc h
    exact ih _ (pairwise_insertSorted r acc h)

theorem pairwise_sortByTs (l : List AddressRecord) :
    (sortByTs l).Pairwise (fun x y => x.timestamp ≤ y.timestamp) :=
  pairwise_foldl_insertSorted l [] (by simp)

theorem mem_of_getLast?_eq {α : Type} :
    ∀ (l : List α) (b : α), l.getLast? = some b → b ∈ l := by
  intro l
  induction l with
  | nil => intro b h; simp at h
  | cons a l ih =>
    intro b h
    cases l with
    | nil =>
      simp [List.getLast?] at h
      simp [h]
    | cons c cs =>
      rw [List.getLast?_cons_cons] at h
      exact List.mem_cons.mpr (Or.inr (ih b h))

theorem pairwise_le_getLast? :
    ∀ (l : List AddressRecord) (b : AddressRecord),
      l.Pairwise (fun x y => x.timestamp ≤ y.timestamp) →
      l.getLast? = some b →
      ∀ x ∈ l, x.timestamp ≤ b.timestamp := by
  intro l
  induction l with
  | nil => intro b _ h; simp at h
  | cons a l ih =>
    intro b hp hb x hx
    rw [List.pairwise_cons] at hp
    cases l with
    | nil =>
      simp [List.getLast?] at hb
      rcases List.mem_singleton.mp hx with rfl
      rw [hb]
    | cons c cs =>
      rw [List.getLast?_cons_cons] at hb
      rcases List.mem_cons.mp hx with rfl | hx
      · have hcb : c.timestamp ≤ b.timestamp ∨ c = b := by
          rcases ih b hp.2 hb c (by simp) with h
          exact Or.inl h
        have hac : x.timestamp ≤ c.timestamp := hp.1 c (by simp)
        rcases hcb with h | rfl
        · omega
        · exact hac
      · exact ih b hp.2 hb x hx

/-- Every reachable store is either the empty file or the line-per-record
rendering of a timestamp-sorted record list: the last append wrote it so. -/
theorem reachable_shape (st : List (List Char)) (h : ReachableStore st) :
    st = [] ∨ ∃ recs : List AddressRecord,
      st = recs.map toLine
        ∧ recs.Pairwise (fun x y => x.timestamp ≤ y.timestamp) := by
  obtain ⟨rs, -, rfl⟩ := h
  rcases List.eq_nil_or_concat rs with rfl | ⟨rs', r, rfl⟩
  · exact Or.inl rfl
  · right
    refine ⟨sortByTs (List.map Prod.snd
      (dictInsert (mergeLines (storeOfAppends rs')) r.address r)), ?_, ?_⟩
    · rw [storeOfAppends, List.concat_eq_append, List.foldl_append]
      rfl
    · exact pairwise_sortByTs _

/-! Helper lemmas: append sequences over a single address, the coalescing
drain, the retry loop, and the debounce dictionary. -/

theorem appendStore_single (r r0 : AddressRecord) (a : List Char)
    (h1 : pyStrip a = a) (hr0 : r0.address = a) (hra : r.address = a) :
    appendStore r [toLine r0] = [toLine r] := by
  have hline : fromLine (toLine r0) = some r0 :=
    fromLine_toLine_of_clean r0 (by rw [hr0]; exact h1)
  have hmerge : mergeLines [toLine r0] = [(a, r0)] := by
    simp [mergeLines, mergeStep, hline, dictGet, hr0]
  have hins : dictInsert [(a, r0)] r.address r = [(a, r)] := by
    simp [dictInsert, dictGet, dictSet, hra]
  rw [appendStore, hmerge, hins]
  rfl

theorem storeOfAppends_same_address (a : List Char) (h1 : pyStrip a = a) :
    ∀ (rs : List AddressRecord) (r0 : AddressRecord), r0.address = a →
      (∀ r ∈ rs, r.address = a) →
      rs.foldl (fun st r => appendStore r st) [toLine r0] = [toLine (rs.getLastD r0)] := by
  intro rs
  induction rs with
  | nil => intro r0 _ _; rfl
  | cons r rs ih =>
    intro r0 hr0 hall
    have hra : r.address = a := hall r (by simp)
    rw [List.foldl_cons, appendStore_single r r0 a h1 hr0 hra, List.getLastD_cons]
    exact ih r hra (fun x hx => hall x (by simp [hx]))

theorem wakeDrain_eq :
    ∀ (l : List AddressRecord) (r : AddressRecord), wakeDrain r l = (l.getLastD r, []) := by
  intro l
  induction l with
  | nil => intro r; rfl
  | cons x xs ih =>
    intro r
    rw [List.getLastD_cons]
    exact ih x

theorem getLast_cons_eq_getLastD {α : Type} (a : α) (l : List α) :
    (a :: l).getLast (List.cons_ne_nil a l) = l.getLastD a :=
  List.getLast_eq_getLastD a l _

theorem trade_fail_cases (trade : Nat → Except Unit Unit)
    (hf : ∀ i, trade i ≠ .ok ()) (k : Nat) : trade k = .error () := by
  cases h : trade k with
  | ok u => cases u; exact absurd h (hf k)
  | error e => cases e; rfl

theorem retryGo_all_fail (trade : Nat → Except Unit Unit)
    (hf : ∀ i, trade i ≠ .ok ()) (total : Nat) (delay : Int) :
    ∀ rem k, retryGo trade total delay rem k
      = ((List.range' k rem).map (fun i =>
          [PEvent.tradeAttempt i, PEvent.logTradeFail i total]
            ++ if i + 1 < k + rem then [PEvent.sleepBetween delay] else [])).flatten
        ++ [PEvent.logAllFailed] := by
  intro rem
  induction rem with
  | zero => intro k; simp [retryGo]
  | succ m ih =>
    intro k
    have he := trade_fail_cases trade hf k
    have hstep : retryGo trade total delay (m + 1) k
        = [PEvent.tradeAttempt k, PEvent.logTradeFail k total]
          ++ (if m ≠ 0 then [PEvent.sleepBetween delay] else [])
          ++ retryGo trade total delay m (k + 1) := by
      simp [retryGo, he]
    rw [hstep, ih (k + 1), List.range'_succ]
    simp only [List.map_cons, List.flatten_cons]
    by_cases hm : m = 0
    · subst hm
      simp [List.range']
    · have h2 : k + 1 < k + (m + 1) := by omega
      simp only [show k + (m + 1) = k + 1 + m from by omega] at h2 ⊢
      simp [hm, h2, List.append_assoc]

theorem countP_retryGo_attempts (trade : Nat → Except Unit Unit)
    (hf : ∀ i, trade i ≠ .ok ()) (total : Nat) (delay : Int) :
    ∀ rem k, (retryGo trade total delay rem k).countP isTradeAttempt = rem := by
  intro rem
  induction rem with
  | zero => intro k; rfl
  | succ m ih =>
    intro k
    have he := trade_fail_cases trade hf k
    have hstep : retryGo trade total delay (m + 1) k
        = [PEvent.tradeAttempt k, PEvent.logTradeFail k total]
          ++ (if m ≠ 0 then [PEvent.sleepBetween delay] else [])
          ++ retryGo trade total delay m (k + 1) := by
      simp [retryGo, he]
    rw [hstep]
    by_cases hm : m = 0 <;>
      simp [hm, List.countP_append, List.countP_cons, isTradeAttempt, ih (k + 1), retryGo]

theorem countP_retryGo_sleeps (trade : Nat → Except Unit Unit)
    (hf : ∀ i, trade i ≠ .ok ()) (total : Nat) (delay : Int) :
    ∀ rem k, (retryGo trade total delay rem k).countP isSleepBetween = rem - 1 := by
  intro rem
  induction rem with
  | zero => intro k; rfl
  | succ m ih =>
    intro k
    have he := trade_fail_cases trade hf k
    have hstep : retryGo trade total delay (m + 1) k
        = [PEvent.tradeAttempt k, PEvent.logTradeFail k total]
          ++ (if m ≠ 0 then [PEvent.sleepBetween delay] else [])
          ++ retryGo trade total delay m (k + 1) := by
      simp [retryGo, he]
    rw [hstep]
    by_cases hm : m = 0
    · simp [hm, List.countP_append, List.countP_cons, isSleepBetween, retryGo]
    · have hmm : m + 1 - 1 = (m - 1) + 1 := by omega
      simp [hm, List.countP_append, List.countP_cons, isSleepBetween, ih (k + 1), hmm]

theorem pruneRecent_eq_filter (thr : Int) (d : PyDict Int) (now : Int) :
    pruneRecent thr d now = d.filter (fun e => now - e.2 < thr) := by
  cases d <;> rfl

theorem dictGet_eq_none_of_not_key {α : Type} :
    ∀ (d : PyDict α) (a : List Char), a ∉ d.map Prod.fst → dictGet d a = none := by
  intro d
  induction d with
  | nil => intro a _; rfl
  | cons e es ih =>
    intro a ha
    rw [List.map_cons, List.mem_cons] at ha
    push_neg at ha
    rw [dictGet, if_neg (fun h => ha.1 h.symm)]
    exact ih a ha.2

theorem shouldSkip_filter_prune (thr now : Int) (a : List Char) :
    ∀ d : PyDict Int, (d.map Prod.fst).Nodup →
      shouldSkip (d.filter (fun e => now - e.2 < thr)) thr a now
        = shouldSkip d thr a now := by
  intro d
  induction d with
  | nil => intro _; rfl
  | cons e es ih =>
    intro hnd
    rw [List.map_cons, List.nodup_cons] at hnd
    by_cases hk : e.1 = a
    · by_cases hp : now - e.2 < thr
      · rw [List.filter_cons, if_pos (by simpa using hp)]
        simp [shouldSkip, dictGet, hk]
      · rw [List.filter_cons, if_neg (by simpa using hp)]
        have hnone : dictGet (es.filter (fun e => now - e.2 < thr)) a = none := by
          apply dictGet_eq_none_of_not_key
          intro hmem
          apply hnd.1
          rw [← hk] at hmem
          obtain ⟨x, hx, hxa⟩ := List.mem_map.mp hmem
          exact List.mem_map.mpr ⟨x, List.mem_of_mem_filter hx, hxa⟩
        simp [shouldSkip, dictGet, hk, hnone, hp]
    · rw [List.filter_cons]
      by_cases hp : now - e.2 < thr
      · rw [if_pos (by simpa using hp)]
        simp only [shouldSkip, dictGet, if_neg hk]
        exact ih hnd.2
      · rw [if_neg (by simpa using hp)]
        have := ih hnd.2
        simp only [shouldSkip, dictGet, if_neg hk] at this ⊢
        exact this

/-! Claim theorems. -/

/-- C8: TimeGuard.is_recent returns true exactly when the reference
instant minus the record timestamp is at most the configured maximum age
(default twenty seconds), and a missing record is never recent, for every
reference instant. -/
theorem c8_time_guard_iff (maxAge now : Int) (r : AddressRecord) :
    (isRecent maxAge (some r) now = true ↔ now - r.timestamp ≤ maxAge)
      ∧ isRecent maxAge none now = false := by
  constructor
  · simp [isRecent]
  · rfl

/-- C4: when the record timestamp is older than the maximum age relative
to the evaluation instant, the recency guard rejects it,
TradingPipeline._process_record returns at once with only the staleness
log, the state is untouched, and in particular no trade attempt occurs. -/
theorem c4_stale_never_executes (cfg : PipeCfg) (trade : Nat → Except Unit Unit)
    (store : List (List Char)) (ps : PipeState) (record : AddressRecord)
    (now execNow : Int) (h : cfg.maxAgeSeconds < now - record.timestamp) :
    processRecord cfg trade store ps record now execNow = (ps, [PEvent.logStale])
      ∧ ∀ i, PEvent.tradeAttempt i ∉ (processRecord cfg trade store ps record now execNow).2 := by
  have hrec : isRecent cfg.maxAgeSeconds (some record) now = false := by
    simp only [isRecent, decide_eq_false_iff_not]
    omega
  refine ⟨by simp [processRecord, hrec], ?_⟩
  intro i
  simp [processRecord, hrec]

/-- C4 witness: a record twenty-one seconds old against a twenty second
window is dropped with no trade attempt. -/
theorem c4_stale_witness :
    (⟨20, 2, 3, 2⟩ : PipeCfg).maxAgeSeconds < 100 - (0 : Int)
      ∧ processRecord ⟨20, 2, 3, 2⟩ (fun _ => Except.error ()) [] ⟨[], none, none⟩
          ⟨0, ['a']⟩ 100 101 = (⟨[], none, none⟩, [PEvent.logStale]) :=
  ⟨by decide,
   (c4_stale_never_executes ⟨20, 2, 3, 2⟩ (fun _ => Except.error ()) [] ⟨[], none, none⟩
     ⟨0, ['a']⟩ 100 101 (by decide)).1⟩

/-- C2: on each wake of the consumer loop, after taking the first
available item the drain keeps only the last queued item, so the survivor
is the most recently enqueued record; one iteration of the loop passes
exactly that record to _process_record. -/
theorem c2_coalescing_drain (cfg : PipeCfg) (trade : Nat → Except Unit Unit)
    (store : List (List Char)) (ps : PipeState)
    (first : AddressRecord) (rest : List AddressRecord) (now execNow : Int) :
    wakeDrain first rest = ((first :: rest).getLast (List.cons_ne_nil first rest), [])
      ∧ runIteration cfg trade store ps first rest now execNow
          = processRecord cfg trade store ps
              ((first :: rest).getLast (List.cons_ne_nil first rest)) now execNow := by
  have h := wakeDrain_eq rest first
  have h2 : (first :: rest).getLast (List.cons_ne_nil first rest) = rest.getLastD first :=
    getLast_cons_eq_getLastD first rest
  exact ⟨by rw [h, h2], by rw [runIteration, h, h2]⟩

/-- C10: pruning the debounce tracker never changes a skip decision taken
at the same reference instant, because pruning removes exactly the entries
that no longer force a skip; membership after pruning is characterized by
the strict debounce-window test. The key-uniqueness hypothesis is the
Python dict invariant of the modelled association list. -/
theorem c10_prune_pure (thr now : Int) (a : List Char) (d : PyDict Int)
    (hnd : (d.map Prod.fst).Nodup) :
    shouldSkip (pruneRecent thr d now) thr a now = shouldSkip d thr a now
      ∧ ∀ e ∈ d, (e ∈ pruneRecent thr d now ↔ now - e.2 < thr) := by
  constructor
  · rw [pruneRecent_eq_filter]
    exact shouldSkip_filter_prune thr now a d hnd
  · intro e he
    rw [pruneRecent_eq_filter]
    constructor
    · intro hmem
      simpa using (List.mem_filter.mp hmem).2
    · intro hlt
      exact List.mem_filter.mpr ⟨he, by simpa using hlt⟩

/-- C10 witness: a two-entry tracker with one stale and one fresh entry
yields the same skip decision before and after pruning. -/
theorem c10_prune_witness :
    (([(['a'], 0), (['b'], 5)] : PyDict Int).map Prod.fst).Nodup
      ∧ shouldSkip (pruneRecent 3 [(['a'], 0), (['b'], 5)] 6) 3 ['a'] 6
          = shouldSkip [(['a'], 0), (['b'], 5)] 3 ['a'] 6 :=
  ⟨by decide, (c10_prune_pure 3 6 ['a'] [(['a'], 0), (['b'], 5)] (by decide)).1⟩

/-- C6: every store reachable by append calls reads back in non-decreasing
timestamp order, and lines that fail to parse are silently skipped by
read_all, contributing nothing. -/
theorem c6_sort_and_skip :
    (∀ st : List (List Char), ReachableStore st →
      (readAll st).Pairwise (fun x y => x.timestamp ≤ y.timestamp))
    ∧ (∀ (pre post : List (List Char)) (l : List Char), fromLine l = none →
        readAll (pre ++ l :: post) = readAll (pre ++ post)) := by
  constructor
  · intro st h
    rcases reachable_shape st h with rfl | ⟨recs, rfl, hp⟩
    · simp [readAll]
    · rw [readAll_map_toLine]
      exact hp.map _ (fun _ _ hab => hab)
  · intro pre post l hl
    simp [readAll, List.filterMap_append, List.filterMap_cons, hl]

/-- C6 witness: a concrete two-append store is sorted, and a malformed
line inserted among valid lines is skipped by read_all. -/
theorem c6_sort_witness :
    (readAll (storeOfAppends [⟨2, ['a']⟩, ⟨1, ['b']⟩])).Pairwise
        (fun x y => x.timestamp ≤ y.timestamp)
      ∧ readAll ([['1', '|', 'a']] ++ ['x'] :: []) = readAll ([['1', '|', 'a']] ++ []) :=
  ⟨c6_sort_and_skip.1 _ ⟨[⟨2, ['a']⟩, ⟨1, ['b']⟩], by decide, rfl⟩,
   c6_sort_and_skip.2 [['1', '|', 'a']] [] ['x'] (by decide)⟩

/-- C7: on every reachable store, read_latest returns none exactly when
the history holds no valid record, and otherwise returns a record of the
history whose timestamp is greatest among all valid records. -/
theorem c7_read_latest_max (st : List (List Char)) (h : ReachableStore st) :
    (readLatest st = none ↔ readAll st = [])
      ∧ ∀ m, readLatest st = some m →
          m ∈ readAll st ∧ ∀ r ∈ readAll st, r.timestamp ≤ m.timestamp := by
  rcases reachable_shape st h with rfl | ⟨recs, rfl, hp⟩
  · refine ⟨by simp [readLatest, readAll, firstValid], ?_⟩
    intro m hm
    simp [readLatest, firstValid] at hm
  · rw [readAll_map_toLine, readLatest_map_toLine]
    cases recs with
    | nil => simp
    | cons r rs =>
      have hlast : (r :: rs).getLast? = some (rs.getLastD r) := by
        rw [List.getLast?_cons, List.getLastD_eq_getLast?]
      rw [hlast]
      refine ⟨by simp, ?_⟩
      intro m hm
      have hm2 : m = (⟨(rs.getLastD r).timestamp,
          pyStrip (pyStripRight (rs.getLastD r).address)⟩ : AddressRecord) :=
        (Option.some.inj hm).symm
      subst hm2
      constructor
      · exact List.mem_map.mpr ⟨rs.getLastD r, List.getLastD_mem_cons rs r, rfl⟩
      · intro x hx
        obtain ⟨y, hy, rfl⟩ := List.mem_map.mp hx
        exact pairwise_le_getLast? (r :: rs) (rs.getLastD r) hp hlast y hy

/-- C7 witness: a concrete reachable three-append store returns the
maximum-timestamp record from read_latest. -/
theorem c7_read_latest_witness :
    ReachableStore (storeOfAppends [⟨2, ['a']⟩, ⟨7, ['b']⟩, ⟨4, ['c']⟩])
      ∧ ∀ m, readLatest (storeOfAppends [⟨2, ['a']⟩, ⟨7, ['b']⟩, ⟨4, ['c']⟩]) = some m →
          m ∈ readAll (storeOfAppends [⟨2, ['a']⟩, ⟨7, ['b']⟩, ⟨4, ['c']⟩])
            ∧ ∀ r ∈ readAll (storeOfAppends [⟨2, ['a']⟩, ⟨7, ['b']⟩, ⟨4, ['c']⟩]),
                r.timestamp ≤ m.timestamp :=
  ⟨⟨[⟨2, ['a']⟩, ⟨7, ['b']⟩, ⟨4, ['c']⟩], by decide, rfl⟩,
   (c7_read_latest_max _ ⟨[⟨2, ['a']⟩, ⟨7, ['b']⟩, ⟨4, ['c']⟩], by decide, rfl⟩).2⟩

/-- C1 counterexample: appending timestamp 5 and then timestamp 3 for the
same address leaves the timestamp 3 record as the sole entry, because
AddressRepository.append assigns the incoming record to its address
unconditionally instead of comparing timestamps; read_latest therefore
does not return the maximum-timestamp record (which has timestamp 5). -/
theorem c1_merge_counterexample :
    readLatest (storeOfAppends [⟨5, ['a']⟩, ⟨3, ['a']⟩]) = some ⟨3, ['a']⟩
      ∧ (∀ r ∈ [(⟨5, ['a']⟩ : AddressRecord), ⟨3, ['a']⟩], r.timestamp ≤ 5)
      ∧ (⟨5, ['a']⟩ : AddressRecord) ∈ [(⟨5, ['a']⟩ : AddressRecord), ⟨3, ['a']⟩]
      ∧ ((⟨3, ['a']⟩ : AddressRecord) ≠ ⟨5, ['a']⟩) := by
  decide

/-- C1 amended: after any nonempty sequence of appends carrying the same
clean address, the store holds exactly one entry for that address and
read_latest returns the record of the final append (last write wins); in
particular this is the maximum-timestamp record whenever the appended
timestamps are non-decreasing, as they are for clock-stamped
observations. -/
theorem c1_amended_last_write_wins (a : List Char) (rs : List AddressRecord)
    (hclean : pyStrip a = a) (hne : rs ≠ []) (haddr : ∀ r ∈ rs, r.address = a) :
    readAll (storeOfAppends rs) = [rs.getLast hne]
      ∧ readLatest (storeOfAppends rs) = some (rs.getLast hne)
      ∧ (storeOfAppends rs).length = 1 := by
  obtain ⟨r0, rs', rfl⟩ := List.exists_cons_of_ne_nil hne
  have hr0 : r0.address = a := haddr r0 (by simp)
  have hfold : storeOfAppends (r0 :: rs') = [toLine (rs'.getLastD r0)] := by
    rw [storeOfAppends, List.foldl_cons]
    have hbase : appendStore r0 [] = [toLine r0] := rfl
    rw [hbase]
    exact storeOfAppends_same_address a hclean rs' r0 hr0
      (fun x hx => haddr x (by simp [hx]))
  have hlast : (r0 :: rs').getLast hne = rs'.getLastD r0 :=
    List.getLast_eq_getLastD r0 rs' hne
  have haddr' : (rs'.getLastD r0).address = a :=
    haddr _ (List.getLastD_mem_cons rs' r0)
  have hfl : fromLine (toLine (rs'.getLastD r0)) = some (rs'.getLastD r0) :=
    fromLine_toLine_of_clean _ (by rw [haddr']; exact hclean)
  rw [hfold, hlast]
  refine ⟨?_, ?_, rfl⟩
  · simp only [readAll, List.filterMap_cons, hfl, List.filterMap_nil]
  · simp only [readLatest, List.reverse_cons, List.reverse_nil, List.nil_append,
      firstValid, hfl]

/-- C1 witness: two same-address appends leave one entry and read_latest
returns the last appended record. -/
theorem c1_amended_witness :
    pyStrip ['a'] = ['a']
      ∧ readLatest (storeOfAppends [⟨5, ['a']⟩, ⟨3, ['a']⟩])
          = some (([(⟨5, ['a']⟩ : AddressRecord), ⟨3, ['a']⟩]).getLast
              (List.cons_ne_nil _ _)) :=
  ⟨by decide,
   (c1_amended_last_write_wins ['a'] [⟨5, ['a']⟩, ⟨3, ['a']⟩]
     (by decide) (List.cons_ne_nil _ _) (by decide)).2.1⟩

/-- C3: when every trade attempt raises, the executor produces exactly the
attempt sequence one through N, logs each failure, sleeps the fixed delay
exactly between consecutive attempts, ends with the terminal
all-attempts-failed log, and returns normally (the model is total: every
raise is caught). The controller state after _process_record does not
depend on the trade outcomes at all, and on the execution path the
debounce bookkeeping records the execution instant exactly as after a
success. -/
theorem c3_retry_exhaustion (N : Nat) (delay : Int) (trade : Nat → Except Unit Unit)
    (hf : ∀ i, trade i ≠ Except.ok ()) :
    executeWithRetry trade N delay
      = ((List.range' 1 N).map (fun i =>
          [PEvent.tradeAttempt i, PEvent.logTradeFail i N]
            ++ if i < N then [PEvent.sleepBetween delay] else [])).flatten
        ++ [PEvent.logAllFailed]
    ∧ (executeWithRetry trade N delay).countP isTradeAttempt = N
    ∧ (executeWithRetry trade N delay).countP isSleepBetween = N - 1
    ∧ (executeWithRetry trade N delay).getLast? = some PEvent.logAllFailed
    ∧ (∀ (cfg : PipeCfg) store ps record now execNow (trade2 : Nat → Except Unit Unit),
        (processRecord cfg trade store ps record now execNow).1
          = (processRecord cfg trade2 store ps record now execNow).1)
    ∧ (∀ (cfg : PipeCfg) store ps record now execNow latest,
        isRecent cfg.maxAgeSeconds (some record) now = true →
        readLatest store = some latest →
        latest.address = record.address →
        latest.timestamp = record.timestamp →
        shouldSkip ps.recentExecutions cfg.debounceSeconds record.address now = false →
        (processRecord cfg trade store ps record now execNow).1.lastExecutionTime
            = some execNow
          ∧ (processRecord cfg trade store ps record now execNow).1.lastExecutedAddress
              = some record.address
          ∧ (processRecord cfg trade store ps record now execNow).1.recentExecutions
              = pruneRecent cfg.debounceSeconds
                  (dictInsert ps.recentExecutions record.address execNow) execNow) := by
  have hcf := retryGo_all_fail trade hf N delay N 1
  have hcond : ∀ i : Nat, (i + 1 < 1 + N) = (i < N) := by
    intro i
    exact propext (by omega)
  refine ⟨?_, ?_, ?_, ?_, ?_, ?_⟩
  · rw [executeWithRetry, hcf]
    simp only [hcond]
  · exact countP_retryGo_attempts trade hf N delay N 1
  · exact countP_retryGo_sleeps trade hf N delay N 1
  · rw [executeWithRetry, hcf]
    exact List.getLast?_concat _
  · intro cfg store ps record now execNow trade2
    by_cases h1 : isRecent cfg.maxAgeSeconds (some record) now = false
    · simp [processRecord, h1]
    · cases h2 : readLatest store with
      | none => simp [processRecord, h1, h2]
      | some latest =>
        by_cases h3 : latest.address = record.address ∧ latest.timestamp = record.timestamp
        · by_cases h4 : shouldSkip ps.recentExecutions cfg.debounceSeconds
              record.address now
          · simp [processRecord, h1, h2, h3, h4]
          · simp [processRecord, h1, h2, h3, h4]
        · simp [processRecord, h1, h2, h3]
  · intro cfg store ps record now execNow latest hrec hlat haddr hts hskip
    refine ⟨?_, ?_, ?_⟩ <;> simp [processRecord, hrec, hlat, haddr, hts, hskip]

/-- C3 witness: at the default three attempts with an always-raising trade
action, exactly three attempts occur, two sleeps separate them, and the
terminal log closes the trace. -/
theorem c3_retry_witness :
    (∀ i : Nat, (fun _ : Nat => (Except.error () : Except Unit Unit)) i ≠ Except.ok ())
      ∧ (executeWithRetry (fun _ => Except.error ()) defaultRetryAttempts 2).countP
          isTradeAttempt = defaultRetryAttempts
      ∧ (executeWithRetry (fun _ => Except.error ()) defaultRetryAttempts 2).countP
          isSleepBetween = defaultRetryAttempts - 1
      ∧ (executeWithRetry (fun _ => Except.error ()) defaultRetryAttempts 2).getLast?
          = some PEvent.logAllFailed :=
  ⟨fun _ h => Except.noConfusion h,
   (c3_retry_exhaustion defaultRetryAttempts 2 _ (fun _ h => Except.noConfusion h)).2.1,
   (c3_retry_exhaustion defaultRetryAttempts 2 _ (fun _ h => Except.noConfusion h)).2.2.1,
   (c3_retry_exhaustion defaultRetryAttempts 2 _ (fun _ h => Except.noConfusion h)).2.2.2.1⟩

/-- C5 counterexample: AddressRecord.from_line performs no address-shape
validation, so parsing the persisted line 0|zzz constructs a record whose
address zzz violates the normalization invariant. -/
theorem c5_shape_counterexample :
    fromLine ['0', '|', 'z', 'z', 'z'] = some ⟨0, ['z', 'z', 'z']⟩
      ∧ ¬ isNormalizedAddr ['z', 'z', 'z'] := by
  decide

/-- C5 amended: every address the listener normalization accepts satisfies
the invariant (two characters 0 and x followed by forty lowercase
hexadecimal characters), for every NFKC table and every candidate, and
create_record preserves it; but from_line does not itself validate the
shape, so records parsed from hand-crafted persisted lines may violate
it. -/
theorem c5_amended_normalization (nfkc : List Char → List Char)
    (candidate t : List Char) (ts : Int)
    (h : normalizeAddress nfkc candidate = some t) :
    isNormalizedAddr t ∧ (create_record t ts).address = t := by
  refine ⟨?_, rfl⟩
  simp only [normalizeAddress] at h
  split_ifs at h with h1 h2 h3 h4
  injection h with h
  subst h
  push_neg at h2 h3
  exact ⟨h2, h3, fun c hc => of_decide_eq_true (List.all_eq_true.mp h4 c hc)⟩

/-- C5 witness: the normalization of an already-normalized candidate
succeeds and its output satisfies the invariant. -/
theorem c5_amended_witness :
    normalizeAddress id ('0' :: 'x' :: List.replicate 40 'a')
        = some ('0' :: 'x' :: List.replicate 40 'a')
      ∧ isNormalizedAddr ('0' :: 'x' :: List.replicate 40 'a') :=
  ⟨by decide,
   (c5_amended_normalization id ('0' :: 'x' :: List.replicate 40 'a')
     ('0' :: 'x' :: List.replicate 40 'a') 0 (by decide)).1⟩

/-- C9 counterexample: the backup directory creation runs outside the try
block of AddressRepository.backup, so an OSError raised there propagates
to the caller instead of yielding the no-snapshot result. -/
theorem c9_backup_counterexample :
    backup ⟨Except.error (), Except.ok [], Except.ok ()⟩ ['t'] = Except.error () := rfl

/-- C9 amended: whenever the backup directory creation succeeds, backup
returns normally; an I/O failure while reading the store content or
writing the snapshot yields the no-snapshot result together with the
failure log, and the snapshot path is produced exactly when both the read
and the write succeed. A directory-creation failure, by contrast,
propagates. -/
theorem c9_amended_backup (env : BackupEnv) (target : List Char)
    (h : env.mkdirResult = Except.ok ()) :
    ∃ res, backup env target = Except.ok res
      ∧ (res.1 = none → res.2 = [BackupEvent.logFailed])
      ∧ (res.1 = none
          ↔ ¬(Except.isOk env.readResult = true ∧ Except.isOk env.writeResult = true)) := by
  obtain ⟨mk, rd, wr⟩ := env
  cases mk with
  | error e => exact absurd h (by simp)
  | ok u =>
    cases rd with
    | error e =>
      cases e
      exact ⟨(none, [BackupEvent.logFailed]), rfl, fun _ => rfl, by simp [Except.isOk, Except.toBool]⟩
    | ok v =>
      cases wr with
      | error e =>
        cases e
        exact ⟨(none, [BackupEvent.logFailed]), rfl, fun _ => rfl, by simp [Except.isOk, Except.toBool]⟩
      | ok u2 =>
        exact ⟨(some target, [BackupEvent.logCreated]), rfl, by simp, by simp [Except.isOk, Except.toBool]⟩

/-- C9 witness: with a failing read and a succeeding directory creation,
backup returns normally with the no-snapshot result. -/
theorem c9_amended_witness :
    (⟨Except.ok (), Except.error (), Except.ok ()⟩ : BackupEnv).mkdirResult = Except.ok ()
      ∧ ∃ res, backup ⟨Except.ok (), Except.error (), Except.ok ()⟩ ['t'] = Except.ok res
          ∧ (res.1 = none → res.2 = [BackupEvent.logFailed])
          ∧ (res.1 = none
              ↔ ¬(Except.isOk (⟨Except.ok (), Except.error (), Except.ok ()⟩
                    : BackupEnv).readResult = true
                  ∧ Except.isOk (⟨Except.ok (), Except.error (), Except.ok ()⟩
                    : BackupEnv).writeResult = true)) :=
  ⟨rfl, c9_amended_backup ⟨Except.ok (), Except.error (), Except.ok ()⟩ ['t'] rfl⟩

end TradingBot
